import Mathlib

/-!
Verification of the intrusive linked-list engine (`intruder_alarm`).

The singly-linked list is embedded from `src/intruder_alarm/src/singly/mod.rs`.
Raw pointers are modelled as node addresses (`Nat`); the heap of nodes is a
total function from addresses to node states; `Link<N>` is an optional
address.  Each list operation becomes a pure function from (heap, list
struct) to (heap, list struct), mirroring the Rust statement by statement.

The doubly-linked list implementation (`doubly/mod.rs`) is not among the
given sources (only its test file is), so its operations are modelled from
the specification, §4.4.
-/

set_option autoImplicit false

namespace IntruderAlarm

/-- Embedding of `Link<N>` (`src/lib.rs`, used by `singly/mod.rs`): an
optional non-owning raw reference, modelled as an optional node address.
`Link::none()` is `none`. -/
abbrev Link : Type := Option Nat

namespace Singly

/-- State of one singly-linked node: the embedded link field exposed by the
`Linked` trait (`links`/`links_mut`) and the payload reached through
`AsRef<T>`/`Into<T>`. -/
structure SNode (T : Type) where
  next : Link
  elem : T

/-- The heap: the node state stored at every address. -/
abbrev Heap (T : Type) : Type := Nat → SNode T

/-- The `List` struct of `singly/mod.rs`: a `head` link and a `len` counter
(the two `PhantomData` markers carry no state). -/
structure SList where
  head : Link
  len : Nat
deriving DecidableEq

/-- `List::new()`: head is `Link::none()`, `len` is 0. -/
def SList.new : SList :=
  { head := none, len := 0 }

/-- `List::is_empty()`: `self.len == 0`. -/
def SList.is_empty (l : SList) : Bool :=
  l.len == 0

/-- `List::head()`: borrows the head node (`self.head.as_ref()`), `none`
when the list is empty. -/
def SList.head_node {T : Type} (h : Heap T) (l : SList) : Option (SNode T) :=
  l.head.map h

/-- `Linked::take_links`: `mem::replace(self.links_mut(), Link::none())` —
returns the node's current link and the node with its link cleared. -/
def take_links {T : Type} (n : SNode T) : Link × SNode T :=
  (n.next, { n with next := none })

/-- `List::push_front_node(node)` where the owning `Ref` holds address `r`:
`*node.links_mut() = self.head`; the `match self.head.0` whose two arms are
both `()` (dead code); `self.head = node`; `self.len += 1`. -/
def push_front_node {T : Type} (h : Heap T) (l : SList) (r : Nat) :
    Heap T × SList :=
  let h' : Heap T := fun a => if a = r then { h a with next := l.head } else h a
  (h', { head := some r, len := l.len + 1 })

/-- `List::pop_front_node()`: `self.head.as_ptr().map(|node| ...)` — when a
head is present: `self.head = (*node).take_links()` (read the old `next`,
clear the node's own link), the dead `match self.head.as_mut()`,
`self.len -= 1`, and `Ref::from_ptr(node)` is returned. -/
def pop_front_node {T : Type} (h : Heap T) (l : SList) :
    Heap T × SList × Option Nat :=
  match l.head with
  | none => (h, l, none)
  | some n =>
    let taken := take_links (h n)
    let h' : Heap T := fun a => if a = n then taken.2 else h a
    (h', { head := taken.1, len := l.len - 1 }, some n)

/-- `Node::from(item)` for a freshly built node: the link field starts as
`Link::none()` (the test node types derive `Default`). -/
def SNode.fromElem {T : Type} (t : T) : SNode T :=
  { next := none, elem := t }

/-- Machine state for the item-level (`Box`-owned) operations: the heap, the
list struct, and the next fresh address used by `Box::new`. -/
structure SState (T : Type) where
  heap : Heap T
  list : SList
  fresh : Nat

/-- `List::push_front(item)`:
`self.push_front_node(Box::new(Node::from(item)))`; `Box::new` places the
fresh node at the next unused address. -/
def push_front {T : Type} (s : SState T) (item : T) : SState T :=
  let r := s.fresh
  let h0 : Heap T := fun a => if a = r then SNode.fromElem item else s.heap a
  let p := push_front_node h0 s.list r
  { heap := p.1, list := p.2, fresh := r + 1 }

/-- `List::pop_front()`: `self.pop_front_node().map(|b| (*b).into())` — the
returned box is unwrapped to its payload. -/
def pop_front {T : Type} (s : SState T) : SState T × Option T :=
  let p := pop_front_node s.heap s.list
  ({ heap := p.1, list := p.2.1, fresh := s.fresh },
   p.2.2.map fun n => (p.1 n).elem)

/-- `Chain h link as vs`: starting from `link`, the heap `h` chains through
the pairwise-distinct addresses `as` whose payloads are `vs`; the last
node's link is `Link::none()`.  This is the well-formed-chain property of
spec §3, invariant 3. -/
inductive Chain {T : Type} (h : Heap T) : Link → List Nat → List T → Prop
  | nil : Chain h none [] []
  | cons {n : Nat} {lk : Link} {as_ : List Nat} {vs : List T} {v : T} :
      (h n).next = lk → (h n).elem = v → Chain h lk as_ vs → n ∉ as_ →
      Chain h (some n) (n :: as_) (v :: vs)

/-- A machine state represents the abstract value sequence `vs`: some
well-formed chain from the head carries payloads `vs`, `len` agrees with
its length, and all chain addresses are below the allocation frontier. -/
def Rep {T : Type} (s : SState T) (vs : List T) : Prop :=
  ∃ as_ : List Nat,
    Chain s.heap s.list.head as_ vs ∧ s.list.len = vs.length ∧
    ∀ a ∈ as_, a < s.fresh

/-- Push each element of `xs` to the front, left to right. -/
def pushAll {T : Type} (s : SState T) (xs : List T) : SState T :=
  xs.foldl push_front s

/-- Pop `k` items from the front, collecting each result. -/
def popN {T : Type} (s : SState T) : Nat → List (Option T) × SState T
  | 0 => ([], s)
  | k + 1 =>
    let p := pop_front s
    let rest := popN p.1 k
    (p.2 :: rest.1, rest.2)

end Singly

namespace Doubly

/-- Modelled from the spec: the doubly-linked node of §3 — the
implementation file `doubly/mod.rs` is not among the given sources (only
its tests are).  A node embeds `links: {prev, next}` plus a payload. -/
structure DNode (T : Type) where
  prev : Link
  next : Link
  elem : T

/-- The heap of doubly-linked nodes. -/
abbrev DHeap (T : Type) : Type := Nat → DNode T

/-- Modelled from the spec: the doubly `List` struct of §3 — `head`,
`tail`, and `len` (`doubly/mod.rs` is missing from the sources). -/
structure DList where
  head : Link
  tail : Link
  len : Nat
deriving DecidableEq

/-- Modelled from the spec: the empty-list constructor (§8, empty
invariant): `len == 0`, `head` and `tail` absent. -/
def DList.new : DList :=
  { head := none, tail := none, len := 0 }

/-- `is_empty()`, as for the singly variant: `len == 0`. -/
def DList.is_empty (l : DList) : Bool :=
  l.len == 0

/-- Modelled from the spec, §4.4 `push_back_node(ref)` (symmetric to the
given `push_front_node`): set `ref.next = none`, `ref.prev = old_tail`; if
`old_tail` is present set `old_tail.next = ref`, else set `head = ref`;
set `tail = ref`; increment `len`.  `r` is the address held by `ref`. -/
def push_back_node {T : Type} (h : DHeap T) (l : DList) (r : Nat) :
    DHeap T × DList :=
  let h1 : DHeap T :=
    fun a => if a = r then { h a with next := none, prev := l.tail } else h a
  match l.tail with
  | none =>
      (h1, { head := some r, tail := some r, len := l.len + 1 })
  | some t =>
      let h2 : DHeap T :=
        fun a => if a = t then { h1 a with next := some r } else h1 a
      (h2, { l with tail := some r, len := l.len + 1 })

/-- Modelled from the spec, §4.4 `pop_front_node()` (`doubly/mod.rs` is
missing): if `head` is absent yield an empty result; otherwise take the
head node (clearing both of its links), set `head` to its former `next`;
if the new head is present clear its `prev`, else clear `tail`; decrement
`len`; return the reclaimed reference. -/
def pop_front_node {T : Type} (h : DHeap T) (l : DList) :
    DHeap T × DList × Option Nat :=
  match l.head with
  | none => (h, l, none)
  | some n =>
    let nd := h n
    let h1 : DHeap T :=
      fun a => if a = n then { nd with prev := none, next := none } else h a
    match nd.next with
    | some m =>
        let h2 : DHeap T :=
          fun a => if a = m then { h1 a with prev := none } else h1 a
        (h2, { l with head := some m, len := l.len - 1 }, some n)
    | none =>
        (h1, { head := none, tail := none, len := l.len - 1 }, some n)

/-- A freshly built node: both links start absent (§3 lifecycle). -/
def DNode.fromElem {T : Type} (t : T) : DNode T :=
  { prev := none, next := none, elem := t }

/-- Machine state for the item-level doubly operations. -/
structure DState (T : Type) where
  heap : DHeap T
  list : DList
  fresh : Nat

/-- Modelled from the spec, §4.4: item-level `push_back(item)` wraps the
payload in a freshly constructed node and delegates to the node-level
push. -/
def push_back {T : Type} (s : DState T) (item : T) : DState T :=
  let r := s.fresh
  let h0 : DHeap T := fun a => if a = r then DNode.fromElem item else s.heap a
  let p := push_back_node h0 s.list r
  { heap := p.1, list := p.2, fresh := r + 1 }

/-- Modelled from the spec, §4.4: item-level `pop_front()` delegates to the
node-level pop and unwraps the node back to its payload. -/
def pop_front {T : Type} (s : DState T) : DState T × Option T :=
  let p := pop_front_node s.heap s.list
  ({ heap := p.1, list := p.2.1, fresh := s.fresh },
   p.2.2.map fun n => (p.1 n).elem)

/-- Modelled from the spec, §4.4: `extend(sequence)` pushes each element of
the input sequence to the back, preserving input order. -/
def extend {T : Type} (s : DState T) (xs : List T) : DState T :=
  xs.foldl push_back s

/-- Modelled from the spec, §4.4: `from_sequence(sequence)` bulk-constructs
a new list by pushing each element of the sequence to the back of an
initially empty list, in order. -/
def from_sequence {T : Type} (h0 : DHeap T) (f0 : Nat) (xs : List T) :
    DState T :=
  extend { heap := h0, list := DList.new, fresh := f0 } xs

/-- `DChain h link as vs`: from `link`, the heap chains through the
pairwise-distinct addresses `as` (following `next` fields) with payloads
`vs`; the last node's `next` is absent. -/
inductive DChain {T : Type} (h : DHeap T) : Link → List Nat → List T → Prop
  | nil : DChain h none [] []
  | cons {n : Nat} {lk : Link} {as_ : List Nat} {vs : List T} {v : T} :
      (h n).next = lk → (h n).elem = v → DChain h lk as_ vs → n ∉ as_ →
      DChain h (some n) (n :: as_) (v :: vs)

/-- A doubly machine state represents the value sequence `vs`: a
well-formed `next`-chain from `head` carries `vs`, `tail` is the last
chain address, `len` agrees, and all chain addresses are below the
allocation frontier. -/
def Rep {T : Type} (s : DState T) (vs : List T) : Prop :=
  ∃ as_ : List Nat,
    DChain s.heap s.list.head as_ vs ∧ s.list.tail = as_.getLast? ∧
    s.list.len = vs.length ∧ ∀ a ∈ as_, a < s.fresh

/-- Pop `k` items from the front, collecting each result. -/
def popN {T : Type} (s : DState T) : Nat → List (Option T) × DState T
  | 0 => ([], s)
  | k + 1 =>
    let p := pop_front s
    let rest := popN p.1 k
    (p.2 :: rest.1, rest.2)

/-- Drain the whole list by popping `len` times from the front. -/
def drain {T : Type} (s : DState T) : List (Option T) :=
  (popN s s.list.len).1

end Doubly

/-- A concrete one-payload heap used to instantiate theorems that carry
hypotheses. -/
def hS0 : Singly.Heap Nat :=
  fun _ => { next := none, elem := 0 }

/-- A concrete one-element singly list: head at address 0, length 1
(well-formed over `hS0`). -/
def lS1 : Singly.SList :=
  { head := some 0, len := 1 }

/-- A concrete doubly state: empty list over an all-default heap. -/
def dS0 : Doubly.DState Nat :=
  { heap := fun _ => { prev := none, next := none, elem := 0 },
    list := Doubly.DList.new, fresh := 0 }

/-! ### Helper lemmas about singly chains -/

/-- A chain is insensitive to heap changes outside its own addresses. -/
theorem Singly.chain_agree {T : Type} {h h' : Singly.Heap T} {lk : Link}
    {as_ : List Nat} {vs : List T} (hc : Singly.Chain h lk as_ vs) :
    (∀ a ∈ as_, h' a = h a) → Singly.Chain h' lk as_ vs := by
  induction hc with
  | nil => intro _; exact Singly.Chain.nil
  | @cons n lk as_ vs v hnext helem hrest hnotin ih =>
    intro hag
    exact Singly.Chain.cons
      (by rw [hag n (by simp)]; exact hnext)
      (by rw [hag n (by simp)]; exact helem)
      (ih fun a haa => hag a (by simp [haa])) hnotin

/-- Inversion of a chain carrying at least one value. -/
theorem Singly.chain_inv_cons {T : Type} {h : Singly.Heap T} {lk : Link}
    {as_ : List Nat} {v : T} {vs : List T}
    (hc : Singly.Chain h lk as_ (v :: vs)) :
    ∃ n as', lk = some n ∧ as_ = n :: as' ∧ (h n).elem = v ∧
      Singly.Chain h ((h n).next) as' vs ∧ n ∉ as' := by
  cases hc with
  | cons hnext helem hrest hnotin =>
    exact ⟨_, _, rfl, rfl, helem, by rw [hnext]; exact hrest, hnotin⟩

/-- Inversion of a chain entered through a present link. -/
theorem Singly.chain_inv_some {T : Type} {h : Singly.Heap T}
    {as_ : List Nat} {vs : List T} {n : Nat}
    (hc : Singly.Chain h (some n) as_ vs) :
    ∃ v vs' as', vs = v :: vs' ∧ as_ = n :: as' ∧ (h n).elem = v ∧
      Singly.Chain h ((h n).next) as' vs' ∧ n ∉ as' := by
  cases hc with
  | cons hnext helem hrest hnotin =>
    exact ⟨_, _, _, rfl, rfl, helem, by rw [hnext]; exact hrest, hnotin⟩

/-- Inversion of a chain carrying no values. -/
theorem Singly.chain_inv_nil {T : Type} {h : Singly.Heap T} {lk : Link}
    {as_ : List Nat} (hc : Singly.Chain h lk as_ []) :
    lk = none ∧ as_ = [] := by
  cases hc; exact ⟨rfl, rfl⟩

/-- A chain is empty exactly when its entry link is absent. -/
theorem Singly.chain_length_zero_iff {T : Type} {h : Singly.Heap T}
    {lk : Link} {as_ : List Nat} {vs : List T}
    (hc : Singly.Chain h lk as_ vs) : vs.length = 0 ↔ lk = none := by
  cases hc <;> simp

/-! ### Claims about the singly list -/

/-- C1: `push_front_node(L, r)` sets the pushed node's link field to the
previous value of `L.head`, sets `L.head` to a link to the pushed node,
and increments `L.len` by exactly 1; every other node of the heap (and the
pushed node's payload) is untouched, so no other step affects the
observable list state. -/
theorem push_front_node_spec {T : Type} (h : Singly.Heap T)
    (l : Singly.SList) (r a : Nat) (ha : a ≠ r) :
    ((Singly.push_front_node h l r).1 r).next = l.head ∧
    ((Singly.push_front_node h l r).1 r).elem = (h r).elem ∧
    (Singly.push_front_node h l r).2.head = some r ∧
    (Singly.push_front_node h l r).2.len = l.len + 1 ∧
    (Singly.push_front_node h l r).1 a = h a := by
  simp [Singly.push_front_node, ha]

/-- Witness for C1 at a concrete heap, the empty list, and addresses 0, 1. -/
theorem push_front_node_spec_witness :
    ((Singly.push_front_node hS0 Singly.SList.new 0).1 0).next = none ∧
    ((Singly.push_front_node hS0 Singly.SList.new 0).1 0).elem = 0 ∧
    (Singly.push_front_node hS0 Singly.SList.new 0).2.head = some 0 ∧
    (Singly.push_front_node hS0 Singly.SList.new 0).2.len = 1 ∧
    (Singly.push_front_node hS0 Singly.SList.new 0).1 1 = hS0 1 := by
  simpa [Singly.SList.new, hS0] using
    push_front_node_spec hS0 Singly.SList.new 0 1 (by decide)

/-- C2: on a non-empty list (under the `len`/`head` invariant),
`pop_front_node` returns the node that was at `L.head`, sets `L.head` to
that node's former `next`, decrements `len` by exactly 1, and the returned
node's link field is `Link::none()` (its payload intact); other heap cells
are untouched. -/
theorem pop_front_node_spec {T : Type} (h : Singly.Heap T)
    (l : Singly.SList) (n a : Nat) (hh : l.head = some n)
    (hinv : l.len = 0 ↔ l.head = none) (han : a ≠ n) :
    (Singly.pop_front_node h l).2.2 = some n ∧
    (Singly.pop_front_node h l).2.1.head = (h n).next ∧
    (Singly.pop_front_node h l).2.1.len + 1 = l.len ∧
    ((Singly.pop_front_node h l).1 n).next = none ∧
    ((Singly.pop_front_node h l).1 n).elem = (h n).elem ∧
    (Singly.pop_front_node h l).1 a = h a := by
  have hpos : 0 < l.len := by
    rcases Nat.eq_zero_or_pos l.len with h0 | h0
    · rw [hinv.mp h0] at hh; cases hh
    · exact h0
  refine ⟨?_, ?_, ?_, ?_, ?_, ?_⟩ <;>
    simp [Singly.pop_front_node, hh, Singly.take_links, han]
  omega

/-- Witness for C2 at the one-element list `lS1` over `hS0`. -/
theorem pop_front_node_spec_witness :
    (Singly.pop_front_node hS0 lS1).2.2 = some 0 ∧
    (Singly.pop_front_node hS0 lS1).2.1.head = none ∧
    (Singly.pop_front_node hS0 lS1).2.1.len + 1 = 1 ∧
    ((Singly.pop_front_node hS0 lS1).1 0).next = none ∧
    ((Singly.pop_front_node hS0 lS1).1 0).elem = 0 ∧
    (Singly.pop_front_node hS0 lS1).1 1 = hS0 1 := by
  simpa [hS0, lS1] using
    pop_front_node_spec hS0 lS1 0 1 rfl (by simp [lS1]) (by decide)

/-- C3: `pop_front_node` on an empty list (head absent) returns `None` and
leaves the heap and every field of the list unchanged; in particular a
zero `len` stays 0. -/
theorem pop_front_node_empty {T : Type} (h : Singly.Heap T)
    (l : Singly.SList) (hh : l.head = none) (hl : l.len = 0) :
    Singly.pop_front_node h l = (h, l, none) ∧
    (Singly.pop_front_node h l).2.1.len = 0 ∧
    (Singly.pop_front_node h l).2.1.head = none := by
  refine ⟨?_, ?_, ?_⟩ <;> simp [Singly.pop_front_node, hh, hl]

/-- Witness for C3 at the freshly constructed list. -/
theorem pop_front_node_empty_witness :
    Singly.pop_front_node hS0 Singly.SList.new = (hS0, Singly.SList.new, none) ∧
    (Singly.pop_front_node hS0 Singly.SList.new).2.1.len = 0 ∧
    (Singly.pop_front_node hS0 Singly.SList.new).2.1.head = none := by
  exact pop_front_node_empty hS0 Singly.SList.new rfl rfl

/-- C4: the invariant `len == 0 ↔ head == Link::none()` holds for `new()`
and is preserved by `push_front_node` and by `pop_front_node`, assuming it
and the well-formed-chain property held before the operation. -/
theorem singly_invariant {T : Type} (h : Singly.Heap T) (l : Singly.SList)
    (as_ : List Nat) (vs : List T) (r : Nat)
    (hc : Singly.Chain h l.head as_ vs) (hlen : l.len = vs.length)
    (hinv : l.len = 0 ↔ l.head = none) :
    (Singly.SList.new.len = 0 ↔ Singly.SList.new.head = none) ∧
    ((Singly.push_front_node h l r).2.len = 0 ↔
      (Singly.push_front_node h l r).2.head = none) ∧
    ((Singly.pop_front_node h l).2.1.len = 0 ↔
      (Singly.pop_front_node h l).2.1.head = none) := by
  refine ⟨by simp [Singly.SList.new], by simp [Singly.push_front_node], ?_⟩
  cases hh : l.head with
  | none =>
    have h0 : l.len = 0 := hinv.mpr hh
    simp [Singly.pop_front_node, hh, h0]
  | some n =>
    rw [hh] at hc
    obtain ⟨v, vs', as', hvs, has, helem, hrest, hnotin⟩ :=
      Singly.chain_inv_some hc
    have h2 := Singly.chain_length_zero_iff hrest
    have h3 : l.len - 1 = vs'.length := by rw [hlen, hvs]; simp
    simp only [Singly.pop_front_node, hh, Singly.take_links]
    rw [h3]
    exact h2

/-- Witness for C4 at the one-element list `lS1` over `hS0`, pushing
address 5. -/
theorem singly_invariant_witness :
    (Singly.SList.new.len = 0 ↔ Singly.SList.new.head = none) ∧
    ((Singly.push_front_node hS0 lS1 5).2.len = 0 ↔
      (Singly.push_front_node hS0 lS1 5).2.head = none) ∧
    ((Singly.pop_front_node hS0 lS1).2.1.len = 0 ↔
      (Singly.pop_front_node hS0 lS1).2.1.head = none) := by
  exact singly_invariant hS0 lS1 [0] [0] 5
    (Singly.Chain.cons rfl rfl Singly.Chain.nil (by simp))
    rfl (by simp [lS1])

/-- C9: `push_front_node(L, r)` leaves the heap cell (so in particular the
link field) of every node already in `L`'s chain unchanged, provided the
pushed address is not already in the chain; only the pushed node, `L.head`
and `L.len` are modified. -/
theorem push_front_node_frame {T : Type} (h : Singly.Heap T)
    (l : Singly.SList) (as_ : List Nat) (vs : List T) (r a : Nat)
    (_hc : Singly.Chain h l.head as_ vs) (hr : r ∉ as_) (ha : a ∈ as_) :
    (Singly.push_front_node h l r).1 a = h a ∧
    ((Singly.push_front_node h l r).1 a).next = (h a).next := by
  have hne : a ≠ r := fun e => hr (e ▸ ha)
  simp [Singly.push_front_node, hne]

/-- Witness for C9: pushing address 5 onto the one-element chain at
address 0 leaves the cell at 0 unchanged. -/
theorem push_front_node_frame_witness :
    (Singly.push_front_node hS0 lS1 5).1 0 = hS0 0 ∧
    ((Singly.push_front_node hS0 lS1 5).1 0).next = (hS0 0).next := by
  exact push_front_node_frame hS0 lS1 [0] [0] 5 0
    (Singly.Chain.cons rfl rfl Singly.Chain.nil (by simp))
    (by simp) (by simp)

/-- C10: in `pop_front_node`, the `len` decrement runs only under a
present head; under the invariant `len == 0 ↔ head == none`, the head
being present forces `1 ≤ len`, so the `usize` subtraction `len - 1`
cannot underflow and the decrement is exact. -/
theorem pop_front_node_no_underflow {T : Type} (h : Singly.Heap T)
    (l : Singly.SList) (n : Nat) (hh : l.head = some n)
    (hinv : l.len = 0 ↔ l.head = none) :
    1 ≤ l.len ∧ (Singly.pop_front_node h l).2.1.len + 1 = l.len := by
  have hpos : 0 < l.len := by
    rcases Nat.eq_zero_or_pos l.len with h0 | h0
    · rw [hinv.mp h0] at hh; cases hh
    · exact h0
  refine ⟨hpos, ?_⟩
  simp [Singly.pop_front_node, hh]
  omega

/-- Witness for C10 at the one-element list `lS1`. -/
theorem pop_front_node_no_underflow_witness :
    1 ≤ lS1.len ∧ (Singly.pop_front_node hS0 lS1).2.1.len + 1 = lS1.len := by
  exact pop_front_node_no_underflow hS0 lS1 0 rfl (by simp [lS1])

/-- C8: a freshly constructed list has `len == 0`, is empty, and an absent
head — and for the doubly variant an absent tail as well; construction is
a total function, so it never fails. -/
theorem new_list_empty :
    Singly.SList.new.len = 0 ∧ Singly.SList.new.is_empty = true ∧
    Singly.SList.new.head = none ∧
    (∀ (T : Type) (h : Singly.Heap T),
      Singly.SList.head_node h Singly.SList.new = none) ∧
    Doubly.DList.new.len = 0 ∧ Doubly.DList.new.is_empty = true ∧
    Doubly.DList.new.head = none ∧ Doubly.DList.new.tail = none := by
  refine ⟨rfl, rfl, rfl, ?_, rfl, rfl, rfl, rfl⟩
  intro T h
  simp [Singly.SList.head_node, Singly.SList.new]

/-! ### Refinement of the item-level singly operations to value lists -/

/-- `push_front` takes a state representing `vs` to one representing
`x :: vs`. -/
theorem Singly.push_front_rep {T : Type} {s : Singly.SState T} {vs : List T}
    (x : T) (hr : Singly.Rep s vs) :
    Singly.Rep (Singly.push_front s x) (x :: vs) := by
  obtain ⟨as_, hc, hlen, hb⟩ := hr
  refine ⟨s.fresh :: as_, ?_, ?_, ?_⟩
  · have hnext : ((Singly.push_front s x).heap s.fresh).next = s.list.head := by
      simp [Singly.push_front, Singly.push_front_node]
    have helem : ((Singly.push_front s x).heap s.fresh).elem = x := by
      simp [Singly.push_front, Singly.push_front_node, Singly.SNode.fromElem]
    have hrest : Singly.Chain (Singly.push_front s x).heap s.list.head as_ vs := by
      refine Singly.chain_agree hc fun a ha => ?_
      have hne : a ≠ s.fresh := Nat.ne_of_lt (hb a ha)
      simp [Singly.push_front, Singly.push_front_node, hne]
    have hnm : s.fresh ∉ as_ := fun hmem => absurd rfl (Nat.ne_of_lt (hb _ hmem))
    exact Singly.Chain.cons hnext helem hrest hnm
  · simp [Singly.push_front, Singly.push_front_node, hlen]
  · intro a ha
    have : (Singly.push_front s x).fresh = s.fresh + 1 := rfl
    rw [this]
    rcases List.mem_cons.mp ha with rfl | ha
    · omega
    · have := hb a ha; omega

/-- `pop_front` on a state representing `v :: vs` yields `v` and a state
representing `vs`. -/
theorem Singly.pop_front_rep_cons {T : Type} {s : Singly.SState T} {v : T}
    {vs : List T} (hr : Singly.Rep s (v :: vs)) :
    (Singly.pop_front s).2 = some v ∧ Singly.Rep (Singly.pop_front s).1 vs := by
  obtain ⟨as_, hc, hlen, hb⟩ := hr
  obtain ⟨n, as', hh, has, helem, hrest, hnotin⟩ := Singly.chain_inv_cons hc
  constructor
  · simp [Singly.pop_front, Singly.pop_front_node, hh, Singly.take_links, helem]
  · refine ⟨as', ?_, ?_, ?_⟩
    · have hhead : (Singly.pop_front s).1.list.head = (s.heap n).next := by
        simp [Singly.pop_front, Singly.pop_front_node, hh, Singly.take_links]
      rw [hhead]
      refine Singly.chain_agree hrest fun a ha => ?_
      have hne : a ≠ n := fun e => hnotin (e ▸ ha)
      simp [Singly.pop_front, Singly.pop_front_node, hh, Singly.take_links, hne]
    · have : (Singly.pop_front s).1.list.len = s.list.len - 1 := by
        simp [Singly.pop_front, Singly.pop_front_node, hh]
      rw [this, hlen]
      simp
    · intro a ha
      have : (Singly.pop_front s).1.fresh = s.fresh := by
        simp [Singly.pop_front]
      rw [this]
      exact hb a (has ▸ List.mem_cons_of_mem n ha)

/-- `pop_front` on a state representing the empty sequence yields `none`
and leaves the state unchanged. -/
theorem Singly.pop_front_rep_nil {T : Type} {s : Singly.SState T}
    (hr : Singly.Rep s []) :
    (Singly.pop_front s).2 = none ∧ (Singly.pop_front s).1 = s := by
  obtain ⟨as_, hc, hlen, hb⟩ := hr
  obtain ⟨hh, -⟩ := Singly.chain_inv_nil hc
  constructor
  · simp [Singly.pop_front, Singly.pop_front_node, hh]
  · simp [Singly.pop_front, Singly.pop_front_node, hh]

/-- Popping `vs.length` times from a state representing `vs` yields
exactly the elements of `vs`, leaving a state representing `[]`. -/
theorem Singly.popN_rep {T : Type} (vs : List T) (s : Singly.SState T)
    (hr : Singly.Rep s vs) :
    (Singly.popN s vs.length).1 = vs.map some ∧
    Singly.Rep (Singly.popN s vs.length).2 [] := by
  induction vs generalizing s with
  | nil => exact ⟨rfl, hr⟩
  | cons v vs ih =>
    obtain ⟨hv, hrep⟩ := Singly.pop_front_rep_cons hr
    obtain ⟨ih1, ih2⟩ := ih _ hrep
    constructor
    · simp [Singly.popN, hv, ih1]
    · simpa [Singly.popN] using ih2

/-- Pushing all of `xs` to the front of a state representing `vs` yields a
state representing `xs.reverse ++ vs`. -/
theorem Singly.pushAll_rep {T : Type} (xs : List T) (s : Singly.SState T)
    (vs : List T) (hr : Singly.Rep s vs) :
    Singly.Rep (Singly.pushAll s xs) (xs.reverse ++ vs) := by
  induction xs generalizing s vs with
  | nil => simpa [Singly.pushAll] using hr
  | cons x xs ih =>
    have h1 := Singly.push_front_rep x hr
    have h2 := ih (Singly.push_front s x) (x :: vs) h1
    have h3 : Singly.pushAll s (x :: xs) =
        Singly.pushAll (Singly.push_front s x) xs := rfl
    rw [h3]
    simpa using h2

/-- C5: pushing `x₁,…,xₙ` to the front of an initially empty list via the
item-level `push_front`, then popping `n` times via the item-level
`pop_front`, yields exactly `xₙ,…,x₁`; the `(n+1)`-th pop yields `none`. -/
theorem push_pop_lifo (T : Type) (xs : List T) (h0 : Singly.Heap T)
    (f0 : Nat) :
    (Singly.popN (Singly.pushAll ⟨h0, Singly.SList.new, f0⟩ xs) xs.length).1
      = xs.reverse.map some ∧
    (Singly.pop_front
      (Singly.popN (Singly.pushAll ⟨h0, Singly.SList.new, f0⟩ xs)
        xs.length).2).2 = none := by
  have h0rep : Singly.Rep ⟨h0, Singly.SList.new, f0⟩ [] :=
    ⟨[], Singly.Chain.nil, rfl, by simp⟩
  have h1 := Singly.pushAll_rep xs ⟨h0, Singly.SList.new, f0⟩ [] h0rep
  rw [List.append_nil] at h1
  have h2 := Singly.popN_rep xs.reverse _ h1
  rw [List.length_reverse] at h2
  exact ⟨h2.1, (Singly.pop_front_rep_nil h2.2).1⟩

/-! ### Helper lemmas about doubly chains -/

/-- A doubly chain only reads `next` and `elem` fields, so it survives any
heap change that preserves those on its own addresses (e.g. clearing a
`prev` pointer). -/
theorem Doubly.dchain_agree {T : Type} {h h' : Doubly.DHeap T} {lk : Link}
    {as_ : List Nat} {vs : List T} (hc : Doubly.DChain h lk as_ vs) :
    (∀ a ∈ as_, (h' a).next = (h a).next ∧ (h' a).elem = (h a).elem) →
    Doubly.DChain h' lk as_ vs := by
  induction hc with
  | nil => intro _; exact Doubly.DChain.nil
  | @cons n lk as_ vs v hnext helem hrest hnotin ih =>
    intro hag
    exact Doubly.DChain.cons
      (by rw [(hag n (by simp)).1]; exact hnext)
      (by rw [(hag n (by simp)).2]; exact helem)
      (ih fun a haa => hag a (by simp [haa])) hnotin

/-- Inversion of a doubly chain entered through a present link. -/
theorem Doubly.dchain_inv_some {T : Type} {h : Doubly.DHeap T}
    {as_ : List Nat} {vs : List T} {n : Nat}
    (hc : Doubly.DChain h (some n) as_ vs) :
    ∃ v vs' as', vs = v :: vs' ∧ as_ = n :: as' ∧ (h n).elem = v ∧
      Doubly.DChain h ((h n).next) as' vs' ∧ n ∉ as' := by
  cases hc with
  | cons hnext helem hrest hnotin =>
    exact ⟨_, _, _, rfl, rfl, helem, by rw [hnext]; exact hrest, hnotin⟩

/-- Inversion of a doubly chain carrying no values. -/
theorem Doubly.dchain_inv_nil {T : Type} {h : Doubly.DHeap T} {lk : Link}
    {as_ : List Nat} (hc : Doubly.DChain h lk as_ []) :
    lk = none ∧ as_ = [] := by
  cases hc; exact ⟨rfl, rfl⟩

/-- Inversion of a doubly chain entered through an absent link. -/
theorem Doubly.dchain_inv_none {T : Type} {h : Doubly.DHeap T}
    {as_ : List Nat} {vs : List T} (hc : Doubly.DChain h none as_ vs) :
    as_ = [] ∧ vs = [] := by
  cases hc; exact ⟨rfl, rfl⟩

/-- Inversion of a doubly chain visiting no addresses. -/
theorem Doubly.dchain_inv_empty {T : Type} {h : Doubly.DHeap T} {lk : Link}
    {vs : List T} (hc : Doubly.DChain h lk [] vs) :
    lk = none ∧ vs = [] := by
  cases hc; exact ⟨rfl, rfl⟩

/-- Appending a node at the back of a doubly chain: if the new heap links
the old last node `t` to a fresh node `m` whose own `next` is absent, and
otherwise preserves `next`/`elem` on the chain, the chain extends by `m`. -/
theorem Doubly.dchain_snoc {T : Type} {h h' : Doubly.DHeap T} {lk : Link}
    {as_ : List Nat} {vs : List T} {t m : Nat} {x : T}
    (hc : Doubly.DChain h lk as_ vs) (hlast : as_.getLast? = some t)
    (hm : m ∉ as_)
    (hag : ∀ a ∈ as_, a ≠ t →
      (h' a).next = (h a).next ∧ (h' a).elem = (h a).elem)
    (htn : (h' t).next = some m) (hte : (h' t).elem = (h t).elem)
    (hmn : (h' m).next = none) (hme : (h' m).elem = x) :
    Doubly.DChain h' lk (as_ ++ [m]) (vs ++ [x]) := by
  induction hc with
  | nil => simp at hlast
  | @cons n lk as_ vs v hnext helem hrest hnotin ih =>
    cases as_ with
    | nil =>
      obtain ⟨hlk, hvs⟩ := Doubly.dchain_inv_empty hrest
      subst hvs
      have hn : n = t := by simpa using hlast
      have hmn' : m ≠ n := by simpa using hm
      have h1 : (h' n).next = some m := by rw [hn]; exact htn
      have h2 : (h' n).elem = v := by rw [hn, hte, ← hn]; exact helem
      have h3 : Doubly.DChain h' (some m) [m] [x] :=
        Doubly.DChain.cons hmn hme Doubly.DChain.nil (by simp)
      have h4 : n ∉ [m] := by
        simp only [List.mem_singleton]
        exact fun e => hmn' e.symm
      exact Doubly.DChain.cons h1 h2 h3 h4
    | cons b as3 =>
      have hlast' : (b :: as3).getLast? = some t := by
        rw [← List.getLast?_cons_cons]; exact hlast
      have htmem : t ∈ b :: as3 := List.mem_of_getLast?_eq_some hlast'
      have hnt : n ≠ t := fun e => hnotin (e ▸ htmem)
      have hrec := ih hlast' (fun e => hm (List.mem_cons_of_mem n e))
        (fun a ha hat => hag a (List.mem_cons_of_mem n ha) hat)
      have hnm : n ≠ m := fun e => hm (by simp [e])
      have hmem' : n ∉ (b :: as3) ++ [m] := by
        intro hx
        rcases List.mem_append.mp hx with hx | hx
        · exact hnotin hx
        · simp at hx; exact hnm hx
      refine Doubly.DChain.cons ?_ ?_ hrec hmem'
      · rw [(hag n (by simp) hnt).1]; exact hnext
      · rw [(hag n (by simp) hnt).2]; exact helem

/-! ### Refinement of the item-level doubly operations to value lists -/

/-- `push_back` takes a state representing `vs` to one representing
`vs ++ [x]`. -/
theorem Doubly.push_back_rep {T : Type} {s : Doubly.DState T} {vs : List T}
    (x : T) (hr : Doubly.Rep s vs) :
    Doubly.Rep (Doubly.push_back s x) (vs ++ [x]) := by
  obtain ⟨as_, hc, htail, hlen, hb⟩ := hr
  have hf : (Doubly.push_back s x).fresh = s.fresh + 1 := rfl
  cases ht : s.list.tail with
  | none =>
    have has : as_ = [] := by
      rw [ht] at htail
      exact List.getLast?_eq_none_iff.mp htail.symm
    subst has
    obtain ⟨hhd, hvs⟩ := Doubly.dchain_inv_empty hc
    subst hvs
    refine ⟨[s.fresh], ?_, ?_, ?_, ?_⟩
    · have h1 : ((Doubly.push_back s x).heap s.fresh).next = none := by
        simp [Doubly.push_back, Doubly.push_back_node, ht]
      have h2 : ((Doubly.push_back s x).heap s.fresh).elem = x := by
        simp [Doubly.push_back, Doubly.push_back_node, ht,
          Doubly.DNode.fromElem]
      have hhead : (Doubly.push_back s x).list.head = some s.fresh := by
        simp [Doubly.push_back, Doubly.push_back_node, ht]
      rw [hhead]
      exact Doubly.DChain.cons h1 h2 Doubly.DChain.nil (by simp)
    · simp [Doubly.push_back, Doubly.push_back_node, ht]
    · simp [Doubly.push_back, Doubly.push_back_node, ht, hlen]
    · intro a ha
      rw [hf]
      simp at ha
      omega
  | some t =>
    have hlast : as_.getLast? = some t := by rw [ht] at htail; exact htail.symm
    have htmem : t ∈ as_ := List.mem_of_getLast?_eq_some hlast
    have htr : t ≠ s.fresh := Nat.ne_of_lt (hb t htmem)
    have hrt : s.fresh ≠ t := Ne.symm htr
    have hrmem : s.fresh ∉ as_ := fun hmem => absurd rfl (Nat.ne_of_lt (hb _ hmem))
    refine ⟨as_ ++ [s.fresh], ?_, ?_, ?_, ?_⟩
    · have hhead : (Doubly.push_back s x).list.head = s.list.head := by
        simp [Doubly.push_back, Doubly.push_back_node, ht]
      rw [hhead]
      refine Doubly.dchain_snoc hc hlast hrmem ?_ ?_ ?_ ?_ ?_
      · intro a ha hat
        have har : a ≠ s.fresh := Nat.ne_of_lt (hb a ha)
        constructor <;>
          simp [Doubly.push_back, Doubly.push_back_node, ht, hat, har]
      · simp [Doubly.push_back, Doubly.push_back_node, ht, htr]
      · simp [Doubly.push_back, Doubly.push_back_node, ht, htr]
      · simp [Doubly.push_back, Doubly.push_back_node, ht, hrt]
      · simp [Doubly.push_back, Doubly.push_back_node, ht, hrt,
          Doubly.DNode.fromElem]
    · simp [Doubly.push_back, Doubly.push_back_node, ht, List.getLast?_concat]
    · simp [Doubly.push_back, Doubly.push_back_node, ht, hlen]
    · intro a ha
      rw [hf]
      rcases List.mem_append.mp ha with ha | ha
      · have := hb a ha; omega
      · simp at ha; omega

/-- `pop_front` on a doubly state representing `v :: vs` yields `v` and a
state representing `vs`. -/
theorem Doubly.dpop_front_rep_cons {T : Type} {s : Doubly.DState T} {v : T}
    {vs : List T} (hr : Doubly.Rep s (v :: vs)) :
    (Doubly.pop_front s).2 = some v ∧ Doubly.Rep (Doubly.pop_front s).1 vs := by
  obtain ⟨as_, hc, htail, hlen, hb⟩ := hr
  obtain ⟨n, hh⟩ : ∃ n, s.list.head = some n := by
    cases hhd : s.list.head with
    | none =>
      rw [hhd] at hc
      obtain ⟨-, h2⟩ := Doubly.dchain_inv_none hc
      cases h2
    | some n => exact ⟨n, rfl⟩
  rw [hh] at hc
  obtain ⟨v', vs', as', hvs, has, helem, hrest, hnotin⟩ :=
    Doubly.dchain_inv_some hc
  injection hvs with hv1 hv2
  subst hv1; subst hv2; subst has
  cases hnx : (s.heap n).next with
  | none =>
    rw [hnx] at hrest
    obtain ⟨has', hvs'⟩ := Doubly.dchain_inv_none hrest
    subst has'; subst hvs'
    constructor
    · simp [Doubly.pop_front, Doubly.pop_front_node, hh, hnx, helem]
    · refine ⟨[], ?_, ?_, ?_, ?_⟩
      · have hhead : (Doubly.pop_front s).1.list.head = none := by
          simp [Doubly.pop_front, Doubly.pop_front_node, hh, hnx]
        rw [hhead]
        exact Doubly.DChain.nil
      · simp [Doubly.pop_front, Doubly.pop_front_node, hh, hnx]
      · simp [Doubly.pop_front, Doubly.pop_front_node, hh, hnx]
        simp at hlen
        omega
      · simp
  | some m =>
    rw [hnx] at hrest
    obtain ⟨w, ws, as2, hvs2, has2, -, -, -⟩ := Doubly.dchain_inv_some hrest
    have hnm : n ≠ m := fun e => hnotin (by rw [e, has2]; simp)
    constructor
    · simp [Doubly.pop_front, Doubly.pop_front_node, hh, hnx, Ne.symm hnm,
        helem]
    · refine ⟨as', ?_, ?_, ?_, ?_⟩
      · have hhead : (Doubly.pop_front s).1.list.head = some m := by
          simp [Doubly.pop_front, Doubly.pop_front_node, hh, hnx]
        rw [hhead]
        refine Doubly.dchain_agree hrest fun a ha => ?_
        have hna : a ≠ n := fun e => hnotin (e ▸ ha)
        by_cases ham : a = m <;>
          simp [Doubly.pop_front, Doubly.pop_front_node, hh, hnx, hna, ham,
            Ne.symm hnm]
      · have htl : (Doubly.pop_front s).1.list.tail = s.list.tail := by
          simp [Doubly.pop_front, Doubly.pop_front_node, hh, hnx]
        rw [htl, htail, has2]
        rw [List.getLast?_cons_cons]
      · simp [Doubly.pop_front, Doubly.pop_front_node, hh, hnx, hlen]
      · intro a ha
        have hfr : (Doubly.pop_front s).1.fresh = s.fresh := rfl
        rw [hfr]
        exact hb a (List.mem_cons_of_mem n ha)

/-- `pop_front` on a doubly state representing `[]` yields `none` and
leaves the state unchanged. -/
theorem Doubly.dpop_front_rep_nil {T : Type} {s : Doubly.DState T}
    (hr : Doubly.Rep s []) :
    (Doubly.pop_front s).2 = none ∧ (Doubly.pop_front s).1 = s := by
  obtain ⟨as_, hc, htail, hlen, hb⟩ := hr
  have hh : s.list.head = none := by
    cases hhd : s.list.head with
    | none => rfl
    | some n =>
      rw [hhd] at hc
      obtain ⟨v, vs', as', hvs, -, -, -, -⟩ := Doubly.dchain_inv_some hc
      cases hvs
  constructor
  · simp [Doubly.pop_front, Doubly.pop_front_node, hh]
  · simp [Doubly.pop_front, Doubly.pop_front_node, hh]

/-- Popping `vs.length` times from a doubly state representing `vs` yields
exactly the elements of `vs`, leaving a state representing `[]`. -/
theorem Doubly.dpopN_rep {T : Type} (vs : List T) (s : Doubly.DState T)
    (hr : Doubly.Rep s vs) :
    (Doubly.popN s vs.length).1 = vs.map some ∧
    Doubly.Rep (Doubly.popN s vs.length).2 [] := by
  induction vs generalizing s with
  | nil => exact ⟨rfl, hr⟩
  | cons v vs ih =>
    obtain ⟨hv, hrep⟩ := Doubly.dpop_front_rep_cons hr
    obtain ⟨ih1, ih2⟩ := ih _ hrep
    constructor
    · simp [Doubly.popN, hv, ih1]
    · simpa [Doubly.popN] using ih2

/-- `extend` takes a state representing `vs` to one representing
`vs ++ xs`. -/
theorem Doubly.extend_rep {T : Type} (xs : List T) (s : Doubly.DState T)
    (vs : List T) (hr : Doubly.Rep s vs) :
    Doubly.Rep (Doubly.extend s xs) (vs ++ xs) := by
  induction xs generalizing s vs with
  | nil => simpa [Doubly.extend] using hr
  | cons x xs ih =>
    have h1 := Doubly.push_back_rep x hr
    have h2 := ih (Doubly.push_back s x) (vs ++ [x]) h1
    have h3 : Doubly.extend s (x :: xs) =
        Doubly.extend (Doubly.push_back s x) xs := rfl
    rw [h3]
    simpa using h2

/-- Draining a doubly state representing `vs` yields exactly `vs`. -/
theorem Doubly.drain_rep {T : Type} (s : Doubly.DState T) (vs : List T)
    (hr : Doubly.Rep s vs) : Doubly.drain s = vs.map some := by
  have hlen : s.list.len = vs.length := by
    obtain ⟨-, -, -, h, -⟩ := hr
    exact h
  rw [Doubly.drain, hlen]
  exact (Doubly.dpopN_rep vs s hr).1

/-- C6: for every input sequence `xs`, the doubly list built by
`from_sequence xs` and drained front-to-back yields exactly the elements
of `xs` in order, and so does the list built by starting empty and looping
`push_back` over `xs` — the two drains agree element for element,
whatever heaps and allocation frontiers the two constructions start
from. -/
theorem from_sequence_loop_push_equivalent (T : Type) (xs : List T)
    (h0 h1 : Doubly.DHeap T) (f0 f1 : Nat) :
    Doubly.drain (Doubly.from_sequence h0 f0 xs) = xs.map some ∧
    Doubly.drain (List.foldl Doubly.push_back ⟨h1, Doubly.DList.new, f1⟩ xs)
      = xs.map some := by
  have hrep0 : Doubly.Rep ⟨h0, Doubly.DList.new, f0⟩ [] :=
    ⟨[], Doubly.DChain.nil, rfl, rfl, by simp⟩
  have hrep1 : Doubly.Rep ⟨h1, Doubly.DList.new, f1⟩ [] :=
    ⟨[], Doubly.DChain.nil, rfl, rfl, by simp⟩
  constructor
  · have h2 := Doubly.extend_rep xs ⟨h0, Doubly.DList.new, f0⟩ [] hrep0
    rw [List.nil_append] at h2
    exact Doubly.drain_rep _ _ h2
  · have h2 := Doubly.extend_rep xs ⟨h1, Doubly.DList.new, f1⟩ [] hrep1
    rw [List.nil_append] at h2
    exact Doubly.drain_rep _ _ h2

/-- C7: `extend(L, seq)` increases `len` by exactly `seq`'s length and
appends `seq` at the back in input order: draining the extended list
front-to-back yields the previous elements followed by `seq`. -/
theorem extend_spec {T : Type} (s : Doubly.DState T) (vs xs : List T)
    (hr : Doubly.Rep s vs) :
    (Doubly.extend s xs).list.len = s.list.len + xs.length ∧
    Doubly.drain (Doubly.extend s xs) = (vs ++ xs).map some := by
  have h1 := Doubly.extend_rep xs s vs hr
  constructor
  · obtain ⟨-, -, -, hlen', -⟩ := h1
    obtain ⟨-, -, -, hlen, -⟩ := hr
    rw [hlen', hlen]
    simp
  · exact Doubly.drain_rep _ _ h1

/-- Witness for C7: extending the concrete empty state `dS0` with `[1, 2]`
doubles nothing and appends both values. -/
theorem extend_spec_witness :
    (Doubly.extend dS0 [1, 2]).list.len = dS0.list.len + 2 ∧
    Doubly.drain (Doubly.extend dS0 [1, 2]) = [some 1, some 2] := by
  simpa using
    extend_spec dS0 [] [1, 2] ⟨[], Doubly.DChain.nil, rfl, rfl, by simp⟩

end IntruderAlarm
